import Mathlib

/-!
Verification of the Simon-style memory game firmware (ATTiny85).

The definitions below are a shallow embedding of the game's core logic:
the LCG random generator `rand_lcg`, the charlieplexed-display encoder
`led_display`, the analog-input classifier `get_player_move`, and the
main-loop finite state machine (`step` over `MachineState`).

Machine integers are modelled as `Nat` with explicit reductions modulo
2^16 where the 16-bit AVR arithmetic can wrap.  The `moves` array is
modelled as a total function `Nat → Nat`: an out-of-bounds write in the C
program corresponds to a write at index ≥ MAX_MOVES in the model, which
we detect through the write index (`cpu_counter` at a CpuTurn step).
Each loop iteration consumes at most one ADC sample; the `step` function
takes that sample as its `input` argument (ignored by the CpuTurn and
error branches, which do not read the ADC).
-/

namespace MemoryGame

/-- The macro `MAX_PERIOD`, defined as 32768. -/
def MAX_PERIOD : Nat := 32768

/-- The macro `MULTIPLIER`, defined as 513. -/
def MULTIPLIER : Nat := 513

/-- The macro `C` (the LCG increment), defined as 1. -/
def C : Nat := 1

/-- The macro `MAX_MOVES`, defined as 100 — the declared size of the
`moves` array. -/
def MAX_MOVES : Nat := 100

/-- Function `rand_lcg` from the source: `return (lcg_previous*a + c) % m;` with
all arithmetic on `uint16_t` (AVR `int` is 16 bits, so the product and
sum wrap modulo 2^16 before the final reduction modulo `m`). -/
def rand_lcg (lcg_previous m a c : Nat) : Nat :=
  ((lcg_previous * a) % 65536 + c) % 65536 % m

/-- Function `led_display` from the source (latest version): the switch mapping
0x01 ↦ 0x03, 0x02 ↦ 0x04, 0x04 ↦ 0x06, 0x08 ↦ 0x01, default ↦ 0. -/
def led_display (state : Nat) : Nat :=
  if state = 1 then 3
  else if state = 2 then 4
  else if state = 4 then 6
  else if state = 8 then 1
  else 0

/-- The band-classification if/else chain at the top of
`get_player_move`: `[500,520] ↦ 0x01`, `[600,620] ↦ 0x02`,
`[660,680] ↦ 0x04`, `[710,730] ↦ 0x08`, otherwise 0. -/
def classify_move (raw_move : Nat) : Nat :=
  if 500 ≤ raw_move ∧ raw_move ≤ 520 then 1
  else if 600 ≤ raw_move ∧ raw_move ≤ 620 then 2
  else if 660 ≤ raw_move ∧ raw_move ≤ 680 then 4
  else if 710 ≤ raw_move ∧ raw_move ≤ 730 then 8
  else 0

/-- Function `get_player_move` with the static `prev_move` made explicit: the
result pair is (returned move, new value of `prev_move`).  The source's
edge logic is `if (move == prev_move) move = 0; else prev_move = move;`. -/
def get_player_move (raw_move prev_move : Nat) : Nat × Nat :=
  let mv := classify_move raw_move
  if mv = prev_move then (0, prev_move) else (mv, mv)

/-- The mutable state of `main`'s loop: `gamestate` (IDLE = 0, CPU = 1,
PLAYER = 2, LOSE = 3, as declared by `enum STATE`; the variable itself
can in principle hold any value, which the error branch handles),
the `moves` array (total map from index), the two counters, the LCG
state `random`, the classifier's static `prev_move`, and the EEPROM
word at address 46. -/
structure MachineState where
  gamestate : Nat
  moves : Nat → Nat
  cpu_counter : Nat
  player_counter : Nat
  random : Nat
  prev_move : Nat
  eeprom46 : Nat

/-- Pointwise array update, modelling `moves[i] = v`. -/
def writeAt (f : Nat → Nat) (i v : Nat) : Nat → Nat :=
  fun j => if j = i then v else f j

/-- The `gamestate == CPU` branch of the main loop: draw a fresh LCG
value, persist it to EEPROM, append `0x01 << (random >> 13)` to `moves`
(truncated to `uint8_t` by the assignment), play back the sequence
(display only — not part of the state), increment `cpu_counter`
(16-bit), and hand over to the player. -/
def cpuStep (s : MachineState) : MachineState :=
  let random2 := rand_lcg s.random MAX_PERIOD MULTIPLIER C
  { s with
    random := random2
    eeprom46 := random2
    moves := writeAt s.moves s.cpu_counter ((1 <<< (random2 >>> 13)) % 256)
    cpu_counter := (s.cpu_counter + 1) % 65536
    gamestate := 2 }

/-- The `gamestate == PLAYER` branch: classify one ADC sample; a zero
result only clears the display; a nonzero result is compared with
`moves[player_counter]` — match at the end of the sequence returns to
the CPU turn, an interior match advances `player_counter`, and a
mismatch resets both counters and falls back to IDLE.  `cpu_counter-1`
and `player_counter+1` are 16-bit operations. -/
def playerStep (s : MachineState) (raw : Nat) : MachineState :=
  let pm := get_player_move raw s.prev_move
  let s1 := { s with prev_move := pm.2 }
  if pm.1 = 0 then s1
  else if pm.1 = s.moves s.player_counter then
    if s.player_counter = (s.cpu_counter + 65535) % 65536 then
      { s1 with player_counter := 0, gamestate := 1 }
    else
      { s1 with player_counter := (s.player_counter + 1) % 65536 }
  else
    { s1 with player_counter := 0, cpu_counter := 0, gamestate := 0 }

/-- The `gamestate == IDLE` branch: increment the seed (16-bit wrap),
persist it, animate, and start the game when the ADC sample exceeds
200. -/
def idleStep (s : MachineState) (raw : Nat) : MachineState :=
  let random2 := (s.random + 1) % 65536
  let s1 := { s with random := random2, eeprom46 := random2 }
  if 200 < raw then { s1 with gamestate := 1 } else s1

/-- One iteration of `main`'s `while (1)` loop, dispatching on
`gamestate` in the source's order (CPU, PLAYER, IDLE, error).  The
error branch only flashes LEDs and leaves the state untouched. -/
def step (s : MachineState) (input : Nat) : MachineState :=
  if s.gamestate = 1 then cpuStep s
  else if s.gamestate = 2 then playerStep s input
  else if s.gamestate = 0 then idleStep s input
  else s

/-- Run the loop once per element of `inputs` (each element is the ADC
sample the iteration would read, ignored by branches that do not read
the ADC). -/
def runMany (s : MachineState) (inputs : List Nat) : MachineState :=
  inputs.foldl step s

/-- The state after `main`'s initialisation: IDLE, counters 0,
`random` seeded from the 16-bit EEPROM word at address 46, and the
classifier's static `prev_move` zero-initialised.  The `moves` array is
uninitialised, so its contents `m0` are arbitrary. -/
def initState (seed : Nat) (m0 : Nat → Nat) : MachineState :=
  { gamestate := 0
    moves := m0
    cpu_counter := 0
    player_counter := 0
    random := seed % 65536
    prev_move := 0
    eeprom46 := seed % 65536 }

/-- A valid stored move: exactly one of the four low bits set. -/
def oneHot (m : Nat) : Prop := m = 1 ∨ m = 2 ∨ m = 4 ∨ m = 8

instance (m : Nat) : Decidable (oneHot m) := by
  unfold oneHot
  infer_instance

/-- Every move stored below `cpu_counter` is one-hot. -/
def movesInv (s : MachineState) : Prop :=
  ∀ i, i < s.cpu_counter → oneHot (s.moves i)

/-- Poll the classifier once per sample in the list, threading the
static `prev_move`; returns (list of returned moves, final prev). -/
def polls : List Nat → Nat → List Nat × Nat
  | [], p => ([], p)
  | r :: rs, p =>
    let pm := get_player_move r p
    let rest := polls rs pm.2
    (pm.1 :: rest.1, rest.2)

/-- Second, spec-side band map, following the words of §4.3 of the
design document: four disjoint numeric bands `[500,520]→A(0x01)`,
`[600,620]→B(0x02)`, `[660,680]→C(0x04)`, `[710,730]→D(0x08)`; any
sample outside all bands yields none (0). -/
def classify_spec_band (raw : Nat) : Nat :=
  if 500 ≤ raw ∧ raw ≤ 520 then 1
  else if 600 ≤ raw ∧ raw ≤ 620 then 2
  else if 660 ≤ raw ∧ raw ≤ 680 then 4
  else if 710 ≤ raw ∧ raw ≤ 730 then 8
  else 0

/-- Second, spec-side classifier contract, following §4.3: if the
classified move equals `previous_move` return none and leave
`previous_move` unchanged; otherwise return the classified move and
update `previous_move` to it. -/
def classify_spec (raw prev : Nat) : Nat × Nat :=
  let m := classify_spec_band raw
  if m = prev then (0, prev) else (m, m)

/-- C3: for every 16-bit state `s`, `rand_lcg(s, 32768, 513, 1)` equals
`(s * 513 + 1) mod 32768` computed over unbounded integers: the 16-bit
wrap of the intermediate product does not change the final reduction
modulo 2^15. -/
theorem rand_lcg_wrap_free (s : Nat) (_hs : s < 65536) :
    rand_lcg s 32768 513 1 = (s * 513 + 1) % 32768 := by
  unfold rand_lcg
  rw [Nat.mod_add_mod, Nat.mod_mod_of_dvd _ (by norm_num : 32768 ∣ 65536)]

theorem rand_lcg_wrap_free_witness :
    7 < 65536 ∧ rand_lcg 7 32768 513 1 = (7 * 513 + 1) % 32768 :=
  ⟨by norm_num, rand_lcg_wrap_free 7 (by norm_num)⟩

/-- C5: the source classifier agrees pointwise with the spec's contract:
samples in `[500,520]`, `[600,620]`, `[660,680]`, `[710,730]` classify
as 0x01, 0x02, 0x04, 0x08 respectively, anything else as none; a
classified move equal to the stored previous move is suppressed (none
returned, previous move unchanged), otherwise the classified move is
returned and stored as the new previous move. -/
theorem get_player_move_meets_contract (raw prev : Nat) :
    get_player_move raw prev = classify_spec raw prev ∧
    (classify_move raw = prev → get_player_move raw prev = (0, prev)) ∧
    (classify_move raw ≠ prev →
      get_player_move raw prev = (classify_move raw, classify_move raw)) := by
  refine ⟨rfl, ?_, ?_⟩ <;> intro h <;> simp [get_player_move, h]

theorem get_player_move_meets_contract_witness :
    get_player_move 510 0 = (1, 1) ∧ get_player_move 510 1 = (0, 1) :=
  ⟨(get_player_move_meets_contract 510 0).2.2 (by decide),
   (get_player_move_meets_contract 510 1).2.1 (by decide)⟩

/-- C8: `led_display` is total: the four one-hot inputs map to the fixed
patterns 3, 4, 6, 1 — pairwise distinct, nonzero, 3-bit values — and
every other `uint8` input (including 0 and multi-bit values) maps to
0. -/
theorem led_display_total :
    led_display 1 = 3 ∧ led_display 2 = 4 ∧
    led_display 4 = 6 ∧ led_display 8 = 1 ∧
    (led_display 1 ≠ led_display 2 ∧ led_display 1 ≠ led_display 4 ∧
     led_display 1 ≠ led_display 8 ∧ led_display 2 ≠ led_display 4 ∧
     led_display 2 ≠ led_display 8 ∧ led_display 4 ≠ led_display 8) ∧
    (led_display 1 ≠ 0 ∧ led_display 2 ≠ 0 ∧
     led_display 4 ≠ 0 ∧ led_display 8 ≠ 0) ∧
    (led_display 1 < 8 ∧ led_display 2 < 8 ∧
     led_display 4 < 8 ∧ led_display 8 < 8) ∧
    (∀ x, x < 256 → x ≠ 1 → x ≠ 2 → x ≠ 4 → x ≠ 8 → led_display x = 0) := by
  refine ⟨rfl, rfl, rfl, rfl, by decide, by decide, by decide, ?_⟩
  intro x _ h1 h2 h4 h8
  simp [led_display, h1, h2, h4, h8]

theorem led_display_total_witness :
    7 < 256 ∧ led_display 7 = 0 :=
  ⟨by norm_num,
   led_display_total.2.2.2.2.2.2.2 7 (by norm_num) (by norm_num)
     (by norm_num) (by norm_num) (by norm_num)⟩

/-- C9: the unrecognized-state branch is terminal: from any state whose
`gamestate` is outside {IDLE, CPU, PLAYER}, one loop iteration (any ADC
sample) leaves the whole state unchanged, and hence any number of
further iterations leaves it unchanged — the machine never recovers by
software. -/
theorem error_state_terminal (s : MachineState)
    (h0 : s.gamestate ≠ 0) (h1 : s.gamestate ≠ 1) (h2 : s.gamestate ≠ 2) :
    (∀ input, step s input = s) ∧ ∀ inputs, runMany s inputs = s := by
  have hstep : ∀ input, step s input = s := by
    intro input
    simp [step, h0, h1, h2]
  refine ⟨hstep, ?_⟩
  intro inputs
  induction inputs with
  | nil => rfl
  | cons a as ih =>
    show runMany (step s a) as = s
    rw [hstep a, ih]

theorem error_state_terminal_witness :
    runMany ⟨3, fun _ => 0, 5, 2, 17, 1, 17⟩ [7, 9, 201] =
      ⟨3, fun _ => 0, 5, 2, 17, 1, 17⟩ :=
  (error_state_terminal ⟨3, fun _ => 0, 5, 2, 17, 1, 17⟩
    (by decide) (by decide) (by decide)).2 [7, 9, 201]

/-- C10: an out-of-band sample re-arms the classifier: when the sample
classifies as none while the stored previous move is nonzero, the
classifier returns none and overwrites the previous move with 0, so a
later sample falling back in the previous band is reported again as a
fresh move. -/
theorem out_of_band_rearms (raw1 raw2 prev : Nat)
    (h1 : classify_move raw1 = 0) (h2 : prev ≠ 0) :
    get_player_move raw1 prev = (0, 0) ∧
    (classify_move raw2 = prev →
      get_player_move raw2 (get_player_move raw1 prev).2 = (prev, prev)) := by
  have hfirst : get_player_move raw1 prev = (0, 0) := by
    simp [get_player_move, h1, Ne.symm h2]
  refine ⟨hfirst, ?_⟩
  intro hband
  rw [hfirst]
  simp [get_player_move, hband, h2]

theorem out_of_band_rearms_witness :
    get_player_move 0 1 = (0, 0) ∧
    get_player_move 510 (get_player_move 0 1).2 = (1, 1) :=
  ⟨(out_of_band_rearms 0 510 1 (by decide) (by decide)).1,
   (out_of_band_rearms 0 510 1 (by decide) (by decide)).2 (by decide)⟩

theorem get_player_move_snd (raw prev : Nat) :
    (get_player_move raw prev).2 = classify_move raw := by
  unfold get_player_move
  by_cases h : classify_move raw = prev <;> simp [h]

theorem get_player_move_held (raw : Nat) :
    get_player_move raw (classify_move raw) = (0, classify_move raw) := by
  simp [get_player_move]

theorem polls_cons (r : Nat) (rs : List Nat) (p : Nat) :
    polls (r :: rs) p =
      ((get_player_move r p).1 :: (polls rs (get_player_move r p).2).1,
        (polls rs (get_player_move r p).2).2) := rfl

theorem polls_held (n raw : Nat) :
    polls (List.replicate n raw) (classify_move raw) =
      (List.replicate n 0, classify_move raw) := by
  induction n with
  | zero => rfl
  | succ m ih =>
    rw [List.replicate_succ, polls_cons, get_player_move_held]
    simp [ih, List.replicate_succ]

theorem getD_replicate_zero (k m d : Nat) (h : k < m) :
    (List.replicate m 0).getD k d = 0 := by
  induction m generalizing k with
  | zero => omega
  | succ m ih =>
    rw [List.replicate_succ]
    cases k with
    | zero => rfl
    | succ k => exact ih k (by omega)

/-- C6: over repeated polls, a held raw sample produces none on the
second and every subsequent poll regardless of the initial stored
previous move, and a changed raw sample falling in a different band
always produces a non-none result and updates the stored previous
move. -/
theorem classifier_idempotent_after_edge (raw prev : Nat) :
    (∀ n i, 1 ≤ i → i < n →
      (polls (List.replicate n raw) prev).1.getD i 37 = 0) ∧
    (classify_move raw ≠ prev → classify_move raw ≠ 0 →
      (get_player_move raw prev).1 ≠ 0 ∧
      get_player_move raw prev = (classify_move raw, classify_move raw)) := by
  constructor
  · intro n i h1 hi
    obtain ⟨m, rfl⟩ : ∃ m, n = m + 1 := ⟨n - 1, by omega⟩
    rw [List.replicate_succ, polls_cons, get_player_move_snd, polls_held]
    obtain ⟨j, rfl⟩ : ∃ j, i = j + 1 := ⟨i - 1, by omega⟩
    simpa using getD_replicate_zero j m 37 (by omega)
  · intro hne hnz
    have h : get_player_move raw prev = (classify_move raw, classify_move raw) := by
      simp [get_player_move, hne]
    exact ⟨by rw [h]; exact hnz, h⟩

theorem classifier_idempotent_after_edge_witness :
    (polls (List.replicate 3 510) 0).1.getD 1 37 = 0 ∧
    get_player_move 610 1 = (2, 2) :=
  ⟨(classifier_idempotent_after_edge 510 0).1 3 1 (by norm_num) (by norm_num),
   ((classifier_idempotent_after_edge 610 1).2 (by decide) (by decide)).2⟩

/-- C2: in state PlayerTurn with a non-none classified move and the
stated preconditions, the step performs exactly the three-way case
split: final match resets `player_counter` and returns to CpuTurn,
interior match increments `player_counter` and stays in PlayerTurn,
mismatch resets both counters and falls back to Idle. -/
theorem player_turn_cases (s : MachineState) (raw : Nat)
    (hgs : s.gamestate = 2)
    (hc1 : 1 ≤ s.cpu_counter) (hc2 : s.cpu_counter < 65536)
    (hpc : s.player_counter < s.cpu_counter)
    (hm : (get_player_move raw s.prev_move).1 ≠ 0) :
    ((get_player_move raw s.prev_move).1 = s.moves s.player_counter →
      ((s.player_counter = s.cpu_counter - 1 →
         (step s raw).player_counter = 0 ∧ (step s raw).gamestate = 1) ∧
       (s.player_counter < s.cpu_counter - 1 →
         (step s raw).player_counter = s.player_counter + 1 ∧
         (step s raw).gamestate = 2))) ∧
    ((get_player_move raw s.prev_move).1 ≠ s.moves s.player_counter →
      (step s raw).player_counter = 0 ∧ (step s raw).cpu_counter = 0 ∧
      (step s raw).gamestate = 0) := by
  have hstep : step s raw = playerStep s raw := by
    simp [step, hgs]
  have hsub : (s.cpu_counter + 65535) % 65536 = s.cpu_counter - 1 := by
    omega
  rw [hstep]
  unfold playerStep
  refine ⟨fun hmatch => ⟨fun hend => ?_, fun hlt => ?_⟩, fun hmm => ?_⟩
  · have c3 : s.player_counter = (s.cpu_counter + 65535) % 65536 := by
      omega
    simp [if_neg hm, if_pos hmatch, if_pos c3]
  · have c3 : s.player_counter ≠ (s.cpu_counter + 65535) % 65536 := by
      omega
    have hinc : (s.player_counter + 1) % 65536 = s.player_counter + 1 := by
      omega
    simp [if_neg hm, if_pos hmatch, if_neg c3, hinc, hgs]
  · simp [if_neg hm, if_neg hmm]

theorem player_turn_cases_witness :
    (step ⟨2, fun _ => 1, 2, 0, 0, 0, 0⟩ 510).player_counter =
      (⟨2, fun _ => 1, 2, 0, 0, 0, 0⟩ : MachineState).player_counter + 1 ∧
    (step ⟨2, fun _ => 1, 2, 0, 0, 0, 0⟩ 510).gamestate = 2 :=
  ((player_turn_cases ⟨2, fun _ => 1, 2, 0, 0, 0, 0⟩ 510 rfl (by decide)
      (by decide) (by decide) (by decide)).1 (by decide)).2 (by decide)

theorem rand_lcg_lt (r : Nat) : rand_lcg r 32768 513 1 < 32768 :=
  Nat.mod_lt _ (by norm_num)

theorem fresh_move_one_hot (r : Nat) :
    oneHot ((1 <<< (rand_lcg r 32768 513 1 >>> 13)) % 256) := by
  have h := rand_lcg_lt r
  have hpow : (2 : Nat) ^ 13 = 8192 := by norm_num
  have ht : rand_lcg r 32768 513 1 >>> 13 < 4 := by
    rw [Nat.shiftRight_eq_div_pow, hpow]
    omega
  have hcases : rand_lcg r 32768 513 1 >>> 13 = 0 ∨
      rand_lcg r 32768 513 1 >>> 13 = 1 ∨
      rand_lcg r 32768 513 1 >>> 13 = 2 ∨
      rand_lcg r 32768 513 1 >>> 13 = 3 := by omega
  rcases hcases with hc | hc | hc | hc <;> rw [hc] <;> decide

theorem playerStep_moves (s : MachineState) (raw : Nat) :
    (playerStep s raw).moves = s.moves := by
  unfold playerStep
  dsimp only
  split_ifs <;> rfl

theorem playerStep_cpu_counter (s : MachineState) (raw : Nat) :
    (playerStep s raw).cpu_counter = s.cpu_counter ∨
    (playerStep s raw).cpu_counter = 0 := by
  unfold playerStep
  dsimp only
  split_ifs <;> first | exact Or.inl rfl | exact Or.inr rfl

theorem idleStep_moves_cpu (s : MachineState) (raw : Nat) :
    (idleStep s raw).moves = s.moves ∧
    (idleStep s raw).cpu_counter = s.cpu_counter := by
  unfold idleStep
  by_cases hr : 200 < raw <;> simp [hr]

theorem step_preserves_movesInv (s : MachineState) (input : Nat)
    (h : movesInv s) : movesInv (step s input) := by
  unfold step
  by_cases h1 : s.gamestate = 1
  · simp only [h1, if_pos, if_true]
    intro i hi
    unfold cpuStep at hi ⊢
    simp only at hi ⊢
    have hile : i < s.cpu_counter + 1 :=
      lt_of_lt_of_le hi (Nat.le_trans (Nat.mod_le _ _) (Nat.le_refl _))
    unfold writeAt
    by_cases hieq : i = s.cpu_counter
    · rw [if_pos hieq]
      exact fresh_move_one_hot s.random
    · rw [if_neg hieq]
      exact h i (by omega)
  · rw [if_neg h1]
    by_cases h2 : s.gamestate = 2
    · rw [if_pos h2]
      intro i hi
      rw [playerStep_moves]
      rcases playerStep_cpu_counter s input with hc | hc
      · rw [hc] at hi
        exact h i hi
      · rw [hc] at hi
        exact absurd hi (Nat.not_lt_zero i)
    · rw [if_neg h2]
      by_cases h3 : s.gamestate = 0
      · rw [if_pos h3]
        intro i hi
        rw [(idleStep_moves_cpu s input).1]
        rw [(idleStep_moves_cpu s input).2] at hi
        exact h i hi
      · rw [if_neg h3]
        exact h

theorem runMany_preserves_movesInv (inputs : List Nat) (s : MachineState)
    (h : movesInv s) : movesInv (runMany s inputs) := by
  induction inputs generalizing s with
  | nil => exact h
  | cons a as ih => exact ih (step s a) (step_preserves_movesInv s a h)

/-- C7: in every state reachable from the initial state (any EEPROM
seed, any uninitialised `moves` contents, any sequence of ADC samples),
every stored move below `cpu_counter` is one of {0x01, 0x02, 0x04,
0x08}; each CpuTurn appends `0x01 << (random >> 13)` with the fresh
`rand_lcg` output below 32768, so the shift amount is in {0,1,2,3}. -/
theorem moves_one_hot_invariant (seed : Nat) (m0 : Nat → Nat)
    (inputs : List Nat) (i : Nat)
    (hi : i < (runMany (initState seed m0) inputs).cpu_counter) :
    oneHot ((runMany (initState seed m0) inputs).moves i) := by
  have hinit : movesInv (initState seed m0) := by
    intro j hj
    exact absurd hj (Nat.not_lt_zero j)
  exact runMany_preserves_movesInv inputs (initState seed m0) hinit i hi

theorem moves_one_hot_invariant_witness :
    oneHot ((runMany (initState 0 (fun _ => 0)) [201, 0]).moves 0) :=
  moves_one_hot_invariant 0 (fun _ => 0) [201, 0] 0 (by decide)

/-- The generator step iterated by the game: `rand_lcg` at the game's
fixed parameters (modulus 32768, multiplier 513, increment 1). -/
def lcgNext (x : Nat) : Nat := rand_lcg x 32768 513 1

theorem lcgNext_eq (x : Nat) : lcgNext x = (x * 513 + 1) % 32768 := by
  unfold lcgNext rand_lcg
  rw [Nat.mod_add_mod, Nat.mod_mod_of_dvd _ (by norm_num : 32768 ∣ 65536)]

/-- The sequence `lcgB k = (513^k - 1) / 512`: the additive part of the
closed form of the k-th LCG iterate. -/
def lcgB : Nat → Nat
  | 0 => 0
  | k + 1 => 513 * lcgB k + 1

theorem lcgB_key (k : Nat) : 512 * lcgB k + 1 = 513 ^ k := by
  induction k with
  | zero => rfl
  | succ k ih =>
    have hp : 513 ^ (k + 1) = 513 ^ k * 513 := pow_succ 513 k
    show 512 * (513 * lcgB k + 1) + 1 = 513 ^ (k + 1)
    omega

theorem lcg_iterate_formula (k s : Nat) (hs : s < 32768) :
    lcgNext^[k] s = (513 ^ k * s + lcgB k) % 32768 := by
  induction k with
  | zero =>
    simp [Nat.mod_eq_of_lt hs, lcgB]
  | succ k ih =>
    rw [Function.iterate_succ_apply', ih, lcgNext_eq]
    have h1 : ((513 ^ k * s + lcgB k) % 32768 * 513 + 1) % 32768 =
        ((513 ^ k * s + lcgB k) * 513 + 1) % 32768 := by
      conv_lhs => rw [Nat.add_mod, Nat.mod_mul_mod]
      conv_rhs => rw [Nat.add_mod]
    have h2 : (513 ^ k * s + lcgB k) * 513 + 1 =
        513 ^ (k + 1) * s + lcgB (k + 1) := by
      show (513 ^ k * s + lcgB k) * 513 + 1 =
        513 ^ (k + 1) * s + (513 * lcgB k + 1)
      rw [pow_succ]
      ring
    rw [h1, h2]

theorem add_mod_eq_self_iff (s t n : Nat) (h : s < n) :
    (s + t) % n = s ↔ n ∣ t := by
  constructor
  · intro he
    have hmeq : s ≡ s + t [MOD n] := by
      unfold Nat.ModEq
      rw [he, Nat.mod_eq_of_lt h]
    have := (Nat.modEq_iff_dvd' (Nat.le_add_right s t)).mp hmeq
    simpa using this
  · rintro ⟨c, rfl⟩
    rw [Nat.add_mul_mod_self_left, Nat.mod_eq_of_lt h]

theorem lcg_fixed_iff (k s : Nat) (hs : s < 32768) :
    lcgNext^[k] s = s ↔ 32768 ∣ lcgB k := by
  rw [lcg_iterate_formula k s hs]
  have hdecomp : 513 ^ k * s + lcgB k = s + lcgB k * (512 * s + 1) := by
    rw [← lcgB_key k]
    ring
  rw [hdecomp, add_mod_eq_self_iff _ _ _ hs]
  constructor
  · intro hdvd
    have hodd : ¬ 2 ∣ (512 * s + 1) := by omega
    have hcop : Nat.Coprime 2 (512 * s + 1) :=
      (Nat.Prime.coprime_iff_not_dvd Nat.prime_two).mpr hodd
    have hcop15 : Nat.Coprime (2 ^ 15) (512 * s + 1) :=
      Nat.Coprime.pow_left 15 hcop
    have h215 : (32768 : Nat) = 2 ^ 15 := by norm_num
    rw [h215] at hdvd ⊢
    exact Nat.Coprime.dvd_of_dvd_mul_right hcop15 hdvd
  · intro hdvd
    exact hdvd.mul_right _

theorem lcgB_mod_two (k : Nat) : lcgB k % 2 = k % 2 := by
  induction k with
  | zero => rfl
  | succ k ih =>
    show (513 * lcgB k + 1) % 2 = (k + 1) % 2
    omega

theorem lcgB_double (k : Nat) : lcgB (2 * k) = lcgB k * (513 ^ k + 1) := by
  have h1 := lcgB_key (2 * k)
  have h2 := lcgB_key k
  have hp : 513 ^ (2 * k) = 513 ^ k * 513 ^ k := by
    rw [two_mul, pow_add]
  have h3 : 512 * (lcgB k * (513 ^ k + 1)) + 1 = 513 ^ (2 * k) := by
    rw [hp, ← h2]
    ring
  omega

theorem pow513_mod_four (k : Nat) : 513 ^ k % 4 = 1 := by
  induction k with
  | zero => rfl
  | succ k ih =>
    rw [pow_succ]
    omega

theorem pow513_succ_factor (k : Nat) :
    ∃ o, Odd o ∧ 513 ^ k + 1 = 2 * o := by
  have h := pow513_mod_four k
  refine ⟨(513 ^ k + 1) / 2, ?_, ?_⟩
  · rw [Nat.odd_iff]
    omega
  · omega

theorem lcgB_two_pow_mul (v j : Nat) (hj : Odd j) :
    ∃ o, Odd o ∧ lcgB (2 ^ v * j) = 2 ^ v * o := by
  induction v with
  | zero =>
    refine ⟨lcgB j, ?_, by simp⟩
    rw [Nat.odd_iff] at hj ⊢
    rw [lcgB_mod_two]
    exact hj
  | succ v ih =>
    obtain ⟨o, ho, hBo⟩ := ih
    obtain ⟨p, hp, hpo⟩ := pow513_succ_factor (2 ^ v * j)
    have h2 : 2 ^ (v + 1) * j = 2 * (2 ^ v * j) := by ring
    refine ⟨o * p, ho.mul hp, ?_⟩
    rw [h2, lcgB_double, hBo, hpo]
    ring

theorem lcgB_not_div (k : Nat) (h0 : 0 < k) (hk : k < 32768) :
    ¬ 32768 ∣ lcgB k := by
  obtain ⟨v, j, hj, rfl⟩ :=
    Nat.exists_eq_two_pow_mul_odd (by omega : k ≠ 0)
  obtain ⟨o, ho, hBo⟩ := lcgB_two_pow_mul v j hj
  intro hdvd
  rw [hBo] at hdvd
  have hj1 : 1 ≤ j := by
    rw [Nat.odd_iff] at hj
    omega
  have hv : v < 15 := by
    by_contra hge
    push_neg at hge
    have hle : (2 : Nat) ^ 15 ≤ 2 ^ v := Nat.pow_le_pow_right (by norm_num) hge
    have : (2 : Nat) ^ 15 * 1 ≤ 2 ^ v * j := Nat.mul_le_mul hle hj1
    simp only [mul_one] at this
    norm_num at this
    omega
  have h215 : (32768 : Nat) = 2 ^ 15 := by norm_num
  rw [h215] at hdvd
  have hsplit : (2 : Nat) ^ 15 = 2 ^ v * 2 ^ (15 - v) := by
    rw [← pow_add]
    congr 1
    omega
  rw [hsplit] at hdvd
  have hdvd3 : 2 ^ (15 - v) ∣ o :=
    (Nat.mul_dvd_mul_iff_left (pow_pos two_pos v)).mp hdvd
  have h2o : 2 ∣ o :=
    dvd_trans (dvd_pow_self 2 (by omega : 15 - v ≠ 0)) hdvd3
  rw [Nat.odd_iff] at ho
  omega

theorem lcgB_full_div : 32768 ∣ lcgB 32768 := by
  obtain ⟨o, ho, hBo⟩ := lcgB_two_pow_mul 15 1 (by decide)
  have he : (2 : Nat) ^ 15 * 1 = 32768 := by norm_num
  rw [he] at hBo
  exact ⟨o, by rw [hBo]; norm_num⟩

theorem lcg_iterate_lt (k s : Nat) (hs : s < 32768) :
    lcgNext^[k] s < 32768 := by
  induction k with
  | zero => exact hs
  | succ k _ =>
    rw [Function.iterate_succ_apply', lcgNext_eq]
    exact Nat.mod_lt _ (by norm_num)

/-- C4: the iterated generator has full period: from every seed below
32768, the first 32768 iterates of `x ↦ rand_lcg(x, 32768, 513, 1)` are
pairwise distinct, cover all of [0, 32768), and the 32768-th iterate
returns to the seed. -/
theorem lcg_full_period (s : Nat) (hs : s < 32768) :
    lcgNext^[32768] s = s ∧
    (∀ i j, i < j → j < 32768 → lcgNext^[i] s ≠ lcgNext^[j] s) ∧
    (∀ t, t < 32768 → ∃ k, k < 32768 ∧ lcgNext^[k] s = t) := by
  have hperiod : lcgNext^[32768] s = s :=
    (lcg_fixed_iff 32768 s hs).mpr lcgB_full_div
  have hnorep : ∀ i j, i < j → j < 32768 →
      lcgNext^[i] s ≠ lcgNext^[j] s := by
    intro i j hij hj heq
    have hd : lcgNext^[32768 - j + i] s = s := by
      have h1 : lcgNext^[32768 - j] (lcgNext^[j] s) = s := by
        rw [← Function.iterate_add_apply]
        have hjj : 32768 - j + j = 32768 := by omega
        rw [hjj]
        exact hperiod
      calc lcgNext^[32768 - j + i] s
          = lcgNext^[32768 - j] (lcgNext^[i] s) :=
            Function.iterate_add_apply _ _ _ _
        _ = lcgNext^[32768 - j] (lcgNext^[j] s) := by rw [heq]
        _ = s := h1
    have hd0 : 0 < 32768 - j + i := by omega
    have hdlt : 32768 - j + i < 32768 := by omega
    exact lcgB_not_div _ hd0 hdlt ((lcg_fixed_iff _ s hs).mp hd)
  refine ⟨hperiod, hnorep, ?_⟩
  have hbound : ∀ k : Fin 32768, lcgNext^[k.1] s < 32768 :=
    fun k => lcg_iterate_lt k.1 s hs
  have hginj : Function.Injective
      (fun k : Fin 32768 => (⟨lcgNext^[k.1] s, hbound k⟩ : Fin 32768)) := by
    intro a b hab
    by_contra hne
    have hvne : a.1 ≠ b.1 := fun h => hne (Fin.ext h)
    rcases Nat.lt_or_ge a.1 b.1 with hlt | hge
    · exact hnorep a.1 b.1 hlt b.2 (congrArg Fin.val hab)
    · have hlt2 : b.1 < a.1 := by omega
      exact hnorep b.1 a.1 hlt2 a.2 (congrArg Fin.val hab.symm)
  have hgsurj := Finite.injective_iff_surjective.mp hginj
  intro t ht
  obtain ⟨k, hk⟩ := hgsurj ⟨t, ht⟩
  exact ⟨k.1, k.2, congrArg Fin.val hk⟩

theorem lcg_full_period_witness :
    lcgNext^[32768] 0 = 0 ∧ ∃ k, k < 32768 ∧ lcgNext^[k] 0 = 12345 :=
  ⟨(lcg_full_period 0 (by norm_num)).1,
   (lcg_full_period 0 (by norm_num)).2.2 12345 (by norm_num)⟩

/-- A representative ADC sample inside the band of each one-hot move. -/
def repOf (m : Nat) : Nat :=
  if m = 1 then 510 else if m = 2 then 610 else if m = 4 then 670 else 720

theorem oneHot_ne_zero (m : Nat) (h : oneHot m) : m ≠ 0 := by
  rcases h with h | h | h | h <;> omega

theorem classify_repOf (m : Nat) (h : oneHot m) :
    classify_move (repOf m) = m := by
  rcases h with h | h | h | h <;> subst h <;> decide

theorem gpm_zero (prev : Nat) : get_player_move 0 prev = (0, 0) := by
  unfold get_player_move
  have hc : classify_move 0 = 0 := rfl
  rw [hc]
  by_cases hp : (0 : Nat) = prev
  · rw [if_pos hp, ← hp]
  · rw [if_neg hp]

theorem gpm_rep (m : Nat) (h : oneHot m) :
    get_player_move (repOf m) 0 = (m, m) := by
  have hc := classify_repOf m h
  have hnz := oneHot_ne_zero m h
  simp [get_player_move, hc, hnz]

theorem step_cpu (s : MachineState) (hgs : s.gamestate = 1) (input : Nat) :
    step s input = cpuStep s := by
  simp [step, hgs]

theorem step_zero_poll (s : MachineState) (hgs : s.gamestate = 2) :
    step s 0 = { s with prev_move := 0 } := by
  have hstep : step s 0 = playerStep s 0 := by simp [step, hgs]
  rw [hstep]
  unfold playerStep
  rw [gpm_zero]
  rfl

theorem step_advance (s : MachineState) (hgs : s.gamestate = 2)
    (hprev : s.prev_move = 0) (hone : oneHot (s.moves s.player_counter))
    (hne : s.player_counter ≠ (s.cpu_counter + 65535) % 65536) :
    step s (repOf (s.moves s.player_counter)) =
      { s with prev_move := s.moves s.player_counter,
               player_counter := (s.player_counter + 1) % 65536 } := by
  have hstep : step s (repOf (s.moves s.player_counter)) =
      playerStep s (repOf (s.moves s.player_counter)) := by
    simp [step, hgs]
  rw [hstep]
  unfold playerStep
  rw [hprev, gpm_rep _ hone]
  simp only [if_neg (oneHot_ne_zero _ hone), if_pos rfl, if_neg hne]
  simp

theorem step_finish (s : MachineState) (hgs : s.gamestate = 2)
    (hprev : s.prev_move = 0) (hone : oneHot (s.moves s.player_counter))
    (heq : s.player_counter = (s.cpu_counter + 65535) % 65536) :
    step s (repOf (s.moves s.player_counter)) =
      { s with prev_move := s.moves s.player_counter,
               player_counter := 0, gamestate := 1 } := by
  have hstep : step s (repOf (s.moves s.player_counter)) =
      playerStep s (repOf (s.moves s.player_counter)) := by
    simp [step, hgs]
  rw [hstep]
  unfold playerStep
  rw [hprev, gpm_rep _ hone]
  simp only [if_neg (oneHot_ne_zero _ hone), if_pos rfl, if_pos heq]
  simp

theorem player_run (k : Nat) :
    ∀ s : MachineState, s.gamestate = 2 → movesInv s →
    s.cpu_counter < 65536 → s.player_counter + k + 1 = s.cpu_counter →
    ∃ inputs, runMany s inputs =
      { s with prev_move := s.moves (s.cpu_counter - 1),
               player_counter := 0, gamestate := 1 } := by
  induction k with
  | zero =>
    intro s hgs hInv hlt hpk
    have hone : oneHot (s.moves s.player_counter) :=
      hInv s.player_counter (by omega)
    have heq : s.player_counter = (s.cpu_counter + 65535) % 65536 := by
      omega
    refine ⟨[0, repOf (s.moves s.player_counter)], ?_⟩
    show step (step s 0) (repOf (s.moves s.player_counter)) = _
    rw [step_zero_poll s hgs]
    have hfin := step_finish { s with prev_move := 0 } hgs rfl hone heq
    rw [hfin]
    have hidx : s.player_counter = s.cpu_counter - 1 := by omega
    rw [hidx]
  | succ k ih =>
    intro s hgs hInv hlt hpk
    have hone : oneHot (s.moves s.player_counter) :=
      hInv s.player_counter (by omega)
    have hne : s.player_counter ≠ (s.cpu_counter + 65535) % 65536 := by
      omega
    have hmod : (s.player_counter + 1) % 65536 = s.player_counter + 1 := by
      omega
    have hadv := step_advance { s with prev_move := 0 } hgs rfl hone hne
    obtain ⟨inputs2, hrun2⟩ := ih
      { s with prev_move := s.moves s.player_counter,
               player_counter := (s.player_counter + 1) % 65536 }
      hgs hInv hlt
      (by show (s.player_counter + 1) % 65536 + k + 1 = s.cpu_counter; omega)
    refine ⟨0 :: repOf (s.moves s.player_counter) :: inputs2, ?_⟩
    show runMany (step (step s 0) (repOf (s.moves s.player_counter)))
      inputs2 = _
    rw [step_zero_poll s hgs, hadv, hrun2]

theorem game_rounds (n : Nat) (hn : n ≤ 100) :
    ∃ inputs s2, runMany (initState 0 (fun _ => 0)) inputs = s2 ∧
      s2.gamestate = 1 ∧ s2.cpu_counter = n ∧ s2.player_counter = 0 ∧
      movesInv s2 := by
  induction n with
  | zero =>
    refine ⟨[201], runMany (initState 0 (fun _ => 0)) [201], rfl,
      rfl, rfl, rfl, ?_⟩
    intro i hi
    have hz : (runMany (initState 0 (fun _ => 0)) [201]).cpu_counter = 0 :=
      rfl
    rw [hz] at hi
    exact absurd hi (Nat.not_lt_zero i)
  | succ n ih =>
    obtain ⟨inputs, s2, hrun, hgs, hcc, hpc, hInv⟩ := ih (by omega)
    have hInv3 : movesInv (step s2 0) := step_preserves_movesInv s2 0 hInv
    rw [step_cpu s2 hgs 0] at hInv3
    have hcc3 : (cpuStep s2).cpu_counter = n + 1 := by
      show (s2.cpu_counter + 1) % 65536 = n + 1
      rw [hcc]
      omega
    have hpc3 : (cpuStep s2).player_counter = 0 := hpc
    obtain ⟨inputs2, hrun2⟩ := player_run n (cpuStep s2) rfl hInv3
      (by rw [hcc3]; omega) (by rw [hpc3, hcc3]; omega)
    refine ⟨inputs ++ 0 :: inputs2,
      { cpuStep s2 with
        prev_move := (cpuStep s2).moves ((cpuStep s2).cpu_counter - 1),
        player_counter := 0, gamestate := 1 }, ?_, rfl, ?_, rfl, ?_⟩
    · rw [runMany, List.foldl_append]
      show runMany (runMany (initState 0 (fun _ => 0)) inputs)
        (0 :: inputs2) = _
      rw [hrun]
      show runMany (step s2 0) inputs2 = _
      rw [step_cpu s2 hgs 0]
      exact hrun2
    · exact hcc3
    · intro i hi
      exact hInv3 i hi

/-- C1 is violated by the code: with EEPROM seed 0 and a cooperative
player, the state with `gamestate = CPU` and `cpu_counter = MAX_MOVES`
is reachable, and the next loop iteration writes the `moves` array at
index `MAX_MOVES` (one past the last valid index) and drives
`cpu_counter` to `MAX_MOVES + 1`. -/
theorem moves_overflow_reachable :
    ∃ inputs s2, runMany (initState 0 (fun _ => 0)) inputs = s2 ∧
      s2.gamestate = 1 ∧ s2.cpu_counter = MAX_MOVES ∧
      ¬ s2.cpu_counter < MAX_MOVES ∧
      (step s2 0).cpu_counter = MAX_MOVES + 1 ∧
      ∃ v, (step s2 0).moves = writeAt s2.moves MAX_MOVES v := by
  obtain ⟨inputs, s2, hrun, hgs, hcc, hpc, hInv⟩ :=
    game_rounds 100 (Nat.le_refl 100)
  refine ⟨inputs, s2, hrun, hgs, hcc, by rw [hcc]; decide, ?_, ?_⟩
  · rw [step_cpu s2 hgs 0]
    show (s2.cpu_counter + 1) % 65536 = MAX_MOVES + 1
    rw [hcc]
    rfl
  · refine ⟨(1 <<< (rand_lcg s2.random MAX_PERIOD MULTIPLIER C >>> 13)) % 256, ?_⟩
    rw [step_cpu s2 hgs 0]
    show writeAt s2.moves s2.cpu_counter _ = writeAt s2.moves MAX_MOVES _
    rw [hcc]
    rfl

end MemoryGame
